import Mathlib

/-!
Verification of the legislative-document extractor in
`src/scripts/lib/parser.ts` (canadian-law-mcp).

The TypeScript parser is a pure function over strings built from a fixed
set of regular-expression scans.  Each regex used by the source is
deterministic after resolving greedy/lazy backtracking (every quantified
class in the patterns is disjoint from the character that follows it, so
the backtracking engine has exactly one viable choice); each scan is
embedded here as a total Lean function over `List Char`.  Positions and
lengths are counted in characters (the source counts UTF-16 units; the
two agree on all inputs without astral-plane characters).
-/

namespace CanLaw

/-- Plain text: a string as a list of characters. -/
abbrev Str := List Char

/-- JavaScript `\s` character class (whitespace, as used by `\s`, `trim`,
`String.prototype.trim` and friends). -/
def jsSpace (c : Char) : Bool :=
  c == ' ' || c == '\t' || c == '\n' || c == '\r' ||
  c == Char.ofNat 11 || c == Char.ofNat 12 ||
  c == Char.ofNat 0xA0 || c == Char.ofNat 0x1680 ||
  (Char.ofNat 0x2000 ≤ c && c ≤ Char.ofNat 0x200A) ||
  c == Char.ofNat 0x2028 || c == Char.ofNat 0x2029 ||
  c == Char.ofNat 0x202F || c == Char.ofNat 0x205F ||
  c == Char.ofNat 0x3000 || c == Char.ofNat 0xFEFF

/-- JavaScript line terminators: the characters that `.` does not match
when the regex lacks the `s` flag. -/
def isLineTerm (c : Char) : Bool :=
  c == '\n' || c == '\r' || c == Char.ofNat 0x2028 || c == Char.ofNat 0x2029

/-- Case-insensitive "starts with", as used by regexes carrying the `i` flag. -/
def ciStarts : Str → Str → Bool
  | [], _ => true
  | _ :: _, [] => false
  | p :: ps, c :: cs => (p.toLower == c.toLower) && ciStarts ps cs

/-- Case-insensitive substring test. -/
def ciContains (pat : Str) : Str → Bool
  | [] => ciStarts pat []
  | c :: rest => ciStarts pat (c :: rest) || ciContains pat rest

/-- Case-sensitive substring test (JS `String.prototype.includes`). -/
def containsSub : Str → Str → Bool
  | [], pat => pat.isEmpty
  | c :: rest, pat => pat.isPrefixOf (c :: rest) || containsSub rest pat

/-- Embedding of the regex fragment `[^>]*>`: consume up to and including
the first `>`; fail when no `>` remains.  (Backtracking cannot pick a
shorter run: any shorter run is followed by a non-`>` character.)
Returns the number of characters consumed. -/
def thruGt (s : Str) : Option Nat :=
  let t := s.takeWhile (fun c => c != '>')
  if t.length < s.length then some (t.length + 1) else none

/-- Embedding of a lazy group `(.*?)` followed by a closing pattern: find
the first position where `close` succeeds, skipping only characters the
dot may match (`dotAll` = the regex `s` flag).  Returns the skipped
characters (the capture) and the total number of characters consumed,
close included. -/
def lazyTo (dotAll : Bool) (close : Str → Option Nat) : Str → Option (Str × Nat)
  | [] => (close []).map (fun k => (([] : Str), k))
  | c :: rest =>
    match close (c :: rest) with
    | some k => some ([], k)
    | none =>
      if dotAll || !isLineTerm c then
        (lazyTo dotAll close rest).map (fun p => (c :: p.1, p.2 + 1))
      else none

/-- Closing pattern that is a case-sensitive literal. -/
def closeLit (lit : Str) (s : Str) : Option Nat :=
  if lit.isPrefixOf s then some lit.length else none

/-- Closing pattern that is a case-insensitive literal. -/
def closeLitCi (lit : Str) (s : Str) : Option Nat :=
  if ciStarts lit s then some lit.length else none

/-- Generic embedding of `String.prototype.replace` with a `g` regex: at
each position try the matcher; on a match of length `len` emit the
replacement and resume after the match (the replacement itself is not
rescanned), otherwise keep one character and move on.  Fuel
`s.length` is always sufficient because every match consumes at least
one character. -/
def gsubF (tm : Str → Option (Str × Nat)) : Nat → Str → Str
  | 0, s => s
  | _ + 1, [] => []
  | fuel + 1, c :: rest =>
    match tm (c :: rest) with
    | some (repl, len) => repl ++ gsubF tm fuel (rest.drop (len - 1))
    | none => c :: gsubF tm fuel rest

/-- Run a global replace over the whole string. -/
def gsub (tm : Str → Option (Str × Nat)) (s : Str) : Str :=
  gsubF tm s.length s

/-- Generic embedding of repeated `RegExp.prototype.exec` with the `g`
flag: all non-overlapping matches in scan order, each paired with its
match index. -/
def scanAllF (tm : Str → Option (α × Nat)) : Nat → Str → Nat → List (α × Nat)
  | 0, _, _ => []
  | _ + 1, [], _ => []
  | fuel + 1, c :: rest, pos =>
    match tm (c :: rest) with
    | some (a, len) => (a, pos) :: scanAllF tm fuel (rest.drop (len - 1)) (pos + len)
    | none => scanAllF tm fuel rest (pos + 1)

/-- Scan a whole string for every match of a pattern. -/
def scanAll (tm : Str → Option (α × Nat)) (s : Str) : List (α × Nat) :=
  scanAllF tm s.length s 0

/-- Generic embedding of a non-global `String.prototype.match`: the
leftmost match's capture. -/
def firstMatch (tm : Str → Option (α × Nat)) : Str → Option α
  | [] => (tm []).map (·.1)
  | c :: rest =>
    match tm (c :: rest) with
    | some (a, _) => some a
    | none => firstMatch tm rest

/-- JS `String.prototype.trim`. -/
def trimStr (s : Str) : Str :=
  ((s.dropWhile jsSpace).reverse.dropWhile jsSpace).reverse

/-! Literals used by the parser's regexes (`src/scripts/lib/parser.ts`). -/

def anchorLit : Str := "id=\"s-".data
def anchorClose : Str := "\">".data
def clsPartLit : Str := "class=\"Part\"".data
def clsSubheadingLit : Str := "class=\"Subheading\"".data
def mnLit : Str := "class=\"MarginalNote\"".data
def spanOpenLit : Str := "<span".data
def mnSpanText : Str := "Marginal note:".data
def spanCloseLit : Str := "</span>".data
def pCloseLit : Str := "</p>".data
def defOpenLit : Str := "<p class=\"Definition\"".data
def dfnOpenLit : Str := "<dfn>".data
def dfnCloseLit : Str := "</dfn>".data
def titleOpenLit : Str := "<title>".data
def titleCloseLit : Str := "</title>".data
def currentToLit : Str := "Act current to".data
def schedOpenLit : Str := "<div class=\"Schedule\"".data
def divCloseLit : Str := "</div>".data
def sectionOpenLit : Str := "<section".data
def footerOpenLit : Str := "<footer".data
def schedLabelLit : Str := "class=\"scheduleLabel\"".data
def schedTitleLit : Str := "class=\"scheduleTitleText\"".data
def schedHeadLit : Str := "<p class=\"SchedHeadL1\"".data
def histDivLit : Str := "<div class=\"HistoricalNote\">".data
def histUlLit : Str := "<ul class=\"HistoricalNote\">".data
def ulCloseLit : Str := "</ul>".data
def mnPOpenLit : Str := "<p class=\"MarginalNote\"".data
def notFoundLit : Str := "Page not Found".data
def error404Lit : Str := "Error 404".data
def mnPlaceholder : Str := "Marginal note:".data
def schedNs : Str := "sched-".data
def statuteLit : Str := "statute".data

/-! The individual regex matchers.  Each `match…At` function embeds one
regex of the source at a fixed start position, returning the capture (if
any) and the total number of characters matched. -/

/-- Matcher for `anchorRe = /id="s-(\d+(?:\.\d+)?)">/g` (parser.ts:120).
Greedy digits followed by the literal `">` leave the engine no
backtracking choice. -/
def matchAnchorAt (s : Str) : Option (Str × Nat) :=
  if anchorLit.isPrefixOf s then
    let r := s.drop anchorLit.length
    let ds := r.takeWhile Char.isDigit
    if ds.isEmpty then none
    else
      let r2 := r.drop ds.length
      match r2 with
      | '.' :: r3 =>
        let ds2 := r3.takeWhile Char.isDigit
        if !ds2.isEmpty && anchorClose.isPrefixOf (r3.drop ds2.length) then
          some (ds ++ '.' :: ds2,
            anchorLit.length + ds.length + 1 + ds2.length + anchorClose.length)
        else none
      | _ =>
        if anchorClose.isPrefixOf r2 then
          some (ds, anchorLit.length + ds.length + anchorClose.length)
        else none
  else none

/-- Matcher for the opening part of
`/<h[23][^>]*class="(?:Part|Subheading)"[^>]*>/i`: matches iff the span
up to the first `>` after `<h2`/`<h3` contains `class="Part"` or
`class="Subheading"` (case-insensitively); neither `[^>]*` can consume a
`>`, so the `>` matched is always the first one.  Returns the length. -/
def matchHeaderOpen (s : Str) : Option Nat :=
  match s with
  | c0 :: c1 :: c2 :: rest =>
    if c0 == '<' && c1.toLower == 'h' && (c2 == '2' || c2 == '3') then
      let t := rest.takeWhile (fun c => c != '>')
      if t.length < rest.length &&
          (ciContains clsPartLit t || ciContains clsSubheadingLit t) then
        some (3 + t.length + 1)
      else none
    else none
  | _ => none

/-- Closing pattern `<\/h[23]>` with the `i` flag. -/
def closeHAt (s : Str) : Option Nat :=
  match s with
  | a :: b :: c :: d :: e :: _ =>
    if a == '<' && b == '/' && c.toLower == 'h' && (d == '2' || d == '3') &&
        e == '>' then some 5 else none
  | _ => none

/-- Matcher for
`partRe = /<h[23][^>]*class="(?:Part|Subheading)"[^>]*>(.*?)<\/h[23]>/gi`
(parser.ts:130).  The regex has no `s` flag, so the lazy dot cannot cross
a line terminator. -/
def matchPartAt (s : Str) : Option (Str × Nat) :=
  match matchHeaderOpen s with
  | none => none
  | some k =>
    (lazyTo false closeHAt (s.drop k)).map (fun p => (p.1, k + p.2))

/-- The `\s*(.*?)<\/p>` tail of `mnRe`: greedy whitespace, then a lazy
no-newline group up to the first `</p>` (case-insensitive).  A shorter
`\s*` only prepends whitespace to the group and reaches the same first
`</p>`, so only the maximal run is viable. -/
def mnTail (s : Str) : Option (Str × Nat) :=
  let w := s.takeWhile jsSpace
  (lazyTo false (closeLitCi pCloseLit) (s.drop w.length)).map
    (fun p => (p.1, w.length + p.2))

/-- Matcher for `mnRe =
/class="MarginalNote"[^>]*>(?:<span[^>]*>Marginal note:<\/span>)?\s*(.*?)<\/p>/gi`
(parser.ts:140).  The optional span group is preferred when it matches;
if the remainder then fails, the engine retries without the group. -/
def matchMnAt (s : Str) : Option (Str × Nat) :=
  if ciStarts mnLit s then
    let r := s.drop mnLit.length
    match thruGt r with
    | none => none
    | some g =>
      let r1 := r.drop g
      let spanLen : Option Nat :=
        if ciStarts spanOpenLit r1 then
          match thruGt (r1.drop spanOpenLit.length) with
          | none => none
          | some g2 =>
            let r3 := (r1.drop spanOpenLit.length).drop g2
            if ciStarts mnSpanText r3 &&
                ciStarts spanCloseLit (r3.drop mnSpanText.length) then
              some (spanOpenLit.length + g2 + mnSpanText.length + spanCloseLit.length)
            else none
        else none
      match spanLen with
      | some sk =>
        match mnTail (r1.drop sk) with
        | some p => some (p.1, mnLit.length + g + sk + p.2)
        | none => (mnTail r1).map (fun p => (p.1, mnLit.length + g + p.2))
      | none => (mnTail r1).map (fun p => (p.1, mnLit.length + g + p.2))
  else none

/-- Matcher for `defRe = /<p class="Definition"[^>]*>(.*?)<\/p>/gi`
(parser.ts:218). -/
def matchDefAt (s : Str) : Option (Str × Nat) :=
  if ciStarts defOpenLit s then
    let r := s.drop defOpenLit.length
    match thruGt r with
    | none => none
    | some g =>
      (lazyTo false (closeLitCi pCloseLit) (r.drop g)).map
        (fun p => (p.1, defOpenLit.length + g + p.2))
  else none

/-- Matcher for `/<dfn>([^<]+)<\/dfn>/` (parser.ts:225), case-sensitive. -/
def matchDfnAt (s : Str) : Option (Str × Nat) :=
  if dfnOpenLit.isPrefixOf s then
    let r := s.drop dfnOpenLit.length
    let t := r.takeWhile (fun c => c != '<')
    if !t.isEmpty && dfnCloseLit.isPrefixOf (r.drop t.length) then
      some (t, dfnOpenLit.length + t.length + dfnCloseLit.length)
    else none
  else none

/-- Matcher for `/<title>([^<]+)<\/title>/` (parser.ts:91). -/
def matchTitleTagAt (s : Str) : Option (Str × Nat) :=
  if titleOpenLit.isPrefixOf s then
    let r := s.drop titleOpenLit.length
    let t := r.takeWhile (fun c => c != '<')
    if !t.isEmpty && titleCloseLit.isPrefixOf (r.drop t.length) then
      some (t, titleOpenLit.length + t.length + titleCloseLit.length)
    else none
  else none

/-- Take exactly `n` digits from the front. -/
def digitsN : Nat → Str → Option Str
  | 0, _ => some []
  | _ + 1, [] => none
  | n + 1, c :: rest =>
    if c.isDigit then (digitsN n rest).map (c :: ·) else none

/-- Matcher for `/Act current to\s*(\d{4}-\d{2}-\d{2})/` (parser.ts:103). -/
def matchCurrentToAt (s : Str) : Option (Str × Nat) :=
  if currentToLit.isPrefixOf s then
    let r := s.drop currentToLit.length
    let w := r.takeWhile jsSpace
    let r2 := r.drop w.length
    match digitsN 4 r2 with
    | none => none
    | some d4 =>
      match r2.drop 4 with
      | '-' :: r3 =>
        match digitsN 2 r3 with
        | none => none
        | some m2 =>
          match r3.drop 2 with
          | '-' :: r4 =>
            match digitsN 2 r4 with
            | none => none
            | some y2 =>
              some (d4 ++ '-' :: m2 ++ '-' :: y2,
                currentToLit.length + w.length + 10)
          | _ => none
      | _ => none
  else none

/-- Closing pattern `<\/div>\s*(?=<div class="Schedule"|<section|<footer|$)`
of `scheduleRe` (parser.ts:253): the whitespace run must be maximal,
since every lookahead alternative starts with `<` or is end-of-input. -/
def closeSchedAt (s : Str) : Option Nat :=
  if ciStarts divCloseLit s then
    let r := s.drop divCloseLit.length
    let w := r.takeWhile jsSpace
    let r2 := r.drop w.length
    if r2.isEmpty || ciStarts schedOpenLit r2 || ciStarts sectionOpenLit r2 ||
        ciStarts footerOpenLit r2 then
      some (divCloseLit.length + w.length)
    else none
  else none

/-- Matcher for `scheduleRe =
/<div class="Schedule"[^>]*>(.*?)<\/div>\s*(?=<div class="Schedule"|<section|<footer|$)/gis`
(parser.ts:253).  The `s` flag lets the lazy dot cross newlines. -/
def matchSchedAt (s : Str) : Option (Str × Nat) :=
  if ciStarts schedOpenLit s then
    let r := s.drop schedOpenLit.length
    match thruGt r with
    | none => none
    | some g =>
      (lazyTo true closeSchedAt (r.drop g)).map
        (fun p => (p.1, schedOpenLit.length + g + p.2))
  else none

/-- Matcher for `/class="scheduleLabel"[^>]*>([^<]+)</` (parser.ts:260). -/
def matchSchedLabelAt (s : Str) : Option (Str × Nat) :=
  if schedLabelLit.isPrefixOf s then
    let r := s.drop schedLabelLit.length
    match thruGt r with
    | none => none
    | some g =>
      let r1 := r.drop g
      let t := r1.takeWhile (fun c => c != '<')
      if !t.isEmpty && t.length < r1.length then
        some (t, schedLabelLit.length + g + t.length + 1)
      else none
  else none

/-- Matcher for `/class="scheduleTitleText"[^>]*>([^<]+)/` (parser.ts:265):
unlike the label, no closing `<` is required. -/
def matchSchedTitleAt (s : Str) : Option (Str × Nat) :=
  if schedTitleLit.isPrefixOf s then
    let r := s.drop schedTitleLit.length
    match thruGt r with
    | none => none
    | some g =>
      let t := (r.drop g).takeWhile (fun c => c != '<')
      if !t.isEmpty then some (t, schedTitleLit.length + g + t.length)
      else none
  else none

/-- Matcher for `headingRe = /<p class="SchedHeadL1"[^>]*>(.*?)<\/p>/gi`
(parser.ts:269). -/
def matchSchedHeadAt (s : Str) : Option (Str × Nat) :=
  if ciStarts schedHeadLit s then
    let r := s.drop schedHeadLit.length
    match thruGt r with
    | none => none
    | some g =>
      (lazyTo false (closeLitCi pCloseLit) (r.drop g)).map
        (fun p => (p.1, schedHeadLit.length + g + p.2))
  else none

/-- Removal matcher for `/<div class="HistoricalNote">.*?<\/div>/gs`
(parser.ts:178), case-sensitive, dot crosses newlines. -/
def matchHistDivAt (s : Str) : Option (Str × Nat) :=
  if histDivLit.isPrefixOf s then
    (lazyTo true (closeLit divCloseLit) (s.drop histDivLit.length)).map
      (fun p => (([] : Str), histDivLit.length + p.2))
  else none

/-- Removal matcher for `/<ul class="HistoricalNote">.*?<\/ul>/gs`
(parser.ts:179). -/
def matchHistUlAt (s : Str) : Option (Str × Nat) :=
  if histUlLit.isPrefixOf s then
    (lazyTo true (closeLit ulCloseLit) (s.drop histUlLit.length)).map
      (fun p => (([] : Str), histUlLit.length + p.2))
  else none

/-- Removal matcher for `/<p class="MarginalNote"[^>]*>.*?<\/p>/gs`
(parser.ts:181), case-sensitive. -/
def matchMnPAt (s : Str) : Option (Str × Nat) :=
  if mnPOpenLit.isPrefixOf s then
    let r := s.drop mnPOpenLit.length
    match thruGt r with
    | none => none
    | some g =>
      (lazyTo true (closeLit pCloseLit) (r.drop g)).map
        (fun p => (([] : Str), mnPOpenLit.length + g + p.2))
  else none

/-- Replacement matcher for `/<[^>]+>/g` inside `stripHtml`
(parser.ts:68): a complete tag becomes a single space. -/
def matchTagAt (s : Str) : Option (Str × Nat) :=
  match s with
  | '<' :: rest =>
    let t := rest.takeWhile (fun c => c != '>')
    if !t.isEmpty && t.length < rest.length then
      some ([' '], t.length + 2)
    else none
  | _ => none

/-- Replacement matcher for `/\s+/g` → one space (parser.ts:83). -/
def matchWsRunAt (s : Str) : Option (Str × Nat) :=
  match s with
  | c :: _ =>
    if jsSpace c then some ([' '], (s.takeWhile jsSpace).length) else none
  | [] => none

/-- Literal global replacement (the entity decodes of `stripHtml`). -/
def litRepl (pat repl : Str) (s : Str) : Option (Str × Nat) :=
  if pat.isPrefixOf s then some (repl, pat.length) else none

/-- Global literal replace. -/
def replaceLit (pat repl : Str) (s : Str) : Str :=
  gsub (litRepl pat repl) s

/-! Data model (parser.ts:22-61). -/

/-- Legal-status enum of a catalog entry. -/
inductive ActStatus where
  | in_force | amended | repealed | not_yet_in_force
deriving DecidableEq, Repr

/-- Embedding of `ActIndexEntry` (parser.ts:22): the static catalog entry. -/
structure ActIndexEntry where
  id : Str
  actPath : Str
  title : Str
  titleFr : Str
  shortName : Str
  status : ActStatus
  issuedDate : Str
  inForceDate : Str
  url : Str
deriving DecidableEq, Repr

/-- Embedding of `ParsedProvision` (parser.ts:34).  The optional `chapter` field is
`none` exactly when the TypeScript field is `undefined`. -/
structure ParsedProvision where
  provision_ref : Str
  chapter : Option Str
  «section» : Str
  title : Str
  content : Str
deriving DecidableEq, Repr

/-- Embedding of `ParsedDefinition` (parser.ts:42). -/
structure ParsedDefinition where
  term : Str
  definition : Str
  source_provision : Option Str
deriving DecidableEq, Repr

/-- Embedding of `ParsedAct` (parser.ts:48).  `description` is always assigned by the
source, so it is a plain string here. -/
structure ParsedAct where
  id : Str
  type : Str
  title : Str
  title_en : Str
  short_name : Str
  status : ActStatus
  issued_date : Str
  in_force_date : Str
  url : Str
  description : Str
  provisions : List ParsedProvision
  definitions : List ParsedDefinition
deriving DecidableEq, Repr

/-! Text normalizer (parser.ts:66-85). -/

/-- Embedding of `stripHtml` (parser.ts:66): remove complete tags, decode the fixed
entity set in source order, collapse whitespace runs, trim. -/
def stripHtml (s : Str) : Str :=
  trimStr (gsub matchWsRunAt
    (replaceLit ("&ccedil;".data) [Char.ofNat 0xE7]
    (replaceLit ("&eacute;".data) [Char.ofNat 0xE9]
    (replaceLit ("&ndash;".data) [Char.ofNat 0x2013]
    (replaceLit ("&mdash;".data) [Char.ofNat 0x2014]
    (replaceLit ("&rdquo;".data) [Char.ofNat 0x201D]
    (replaceLit ("&ldquo;".data) [Char.ofNat 0x201C]
    (replaceLit ("&rsquo;".data) [Char.ofNat 0x2019]
    (replaceLit ("&#39;".data) [Char.ofNat 39]
    (replaceLit ("&quot;".data) ['"']
    (replaceLit ("&gt;".data) ['>']
    (replaceLit ("&lt;".data) ['<']
    (replaceLit ("&amp;".data) ['&']
    (replaceLit ("&#x00A0;".data) [' ']
    (replaceLit ("&nbsp;".data) [' ']
    (gsub matchTagAt s))))))))))))))))

/-- Embedding of `extractDescription` (parser.ts:90). -/
def extractDescription (html : Str) (act : ActIndexEntry) : Str :=
  match firstMatch matchTitleTagAt html with
  | some t => stripHtml t ++ " (".data ++ act.shortName ++ [')']
  | none => act.title

/-- Embedding of `extractCurrentToDate` (parser.ts:102). -/
def extractCurrentToDate (html : Str) : Option Str :=
  firstMatch matchCurrentToAt html

/-! Locator: the three marker scans of `extractSections`. -/

/-- Section anchors: `(number, offset)` list (parser.ts:119-124). -/
def anchorsOf (html : Str) : List (Str × Nat) :=
  scanAll matchAnchorAt html

/-- Part/Division heading markers: `(label, offset)` (parser.ts:130-135). -/
def partsOf (html : Str) : List (Str × Nat) :=
  (scanAll matchPartAt html).map (fun q => (stripHtml q.1, q.2))

/-- Marginal-note markers, already filtered of empty and placeholder
notes (parser.ts:139-146). -/
def notesOf (html : Str) : List (Str × Nat) :=
  ((scanAll matchMnAt html).map (fun q => (stripHtml q.1, q.2))).filter
    (fun q => decide (q.1 ≠ [] ∧ q.1 ≠ mnPlaceholder))

/-! Segmenter (parser.ts:149-209). -/

/-- Prefix of the string strictly before the first position where `test`
succeeds; embeds the truncating `.replace(/…[\s\S]*$/, '')` calls
(parser.ts:183,185). -/
def truncateAt (test : Str → Bool) : Str → Str
  | [] => []
  | c :: rest => if test (c :: rest) then [] else c :: truncateAt test rest

/-- Anchored `text.replace(/^\s*id="s-[\d.]+"\s*>\s*/, '')`
(parser.ts:190).  Every quantifier is followed by a character outside
its class, so the match is unique. -/
def stripAnchorRes (s : Str) : Str :=
  let w := s.dropWhile jsSpace
  if anchorLit.isPrefixOf w then
    let r := w.drop anchorLit.length
    let dd := r.takeWhile (fun c => c.isDigit || c == '.')
    if dd.isEmpty then s
    else
      match r.drop dd.length with
      | '"' :: r3 =>
        match r3.dropWhile jsSpace with
        | '>' :: r4 => r4.dropWhile jsSpace
        | _ => s
      | _ => s
  else s

/-- Anchored `text.replace(/^\s*\d+(?:\.\d+)?\s+/, `${anchor.num} `)`
(parser.ts:192). -/
def fixLeadingNum (num : Str) (s : Str) : Str :=
  let w := s.dropWhile jsSpace
  let d := w.takeWhile Char.isDigit
  if d.isEmpty then s
  else
    match w.drop d.length with
    | '.' :: r2 =>
      let d2 := r2.takeWhile Char.isDigit
      if d2.isEmpty then s
      else
        match r2.drop d2.length with
        | c :: r3 => if jsSpace c then num ++ ' ' :: (c :: r3).dropWhile jsSpace else s
        | [] => s
    | c :: r1 => if jsSpace c then num ++ ' ' :: (c :: r1).dropWhile jsSpace else s
    | [] => s

/-- Embedding of `text.replace(/<[^>]*$/, '')` (parser.ts:194): cut at the leftmost
`<` that is not followed by any later `>`. -/
def dropTrailingLt : Str → Str
  | [] => []
  | c :: rest =>
    if c == '<' && !rest.contains '>' then []
    else c :: dropTrailingLt rest

/-- The cleaned, normalized body text of one section region
(parser.ts:173-194): the raw half-open region between consecutive
anchors, historical notes and marginal notes removed, truncated at a
leaked heading or schedule, tag-stripped, anchor residue and leading
numeral fixed, trailing partial tag dropped, trimmed.  This is the
pre-cap text whose length is checked against the 10-character floor. -/
def sectionBody (html : Str) (num : Str) (pos nextPos : Nat) : Str :=
  let sectionHtml := (html.drop pos).take (nextPos - pos)
  let c1 := gsub matchHistDivAt sectionHtml
  let c2 := gsub matchHistUlAt c1
  let c3 := gsub matchMnPAt c2
  let c4 := truncateAt (fun s => (matchHeaderOpen s).isSome) c3
  let c5 := truncateAt (fun s => ciStarts schedOpenLit s) c4
  let text := stripHtml c5
  trimStr (dropTrailingLt (fixLeadingNum num (stripAnchorRes text)))

/-- Value stored in the section map (parser.ts:115). -/
structure SectionData where
  title : Str
  content : Str
  chapter : Str
deriving DecidableEq, Repr

/-- Insertion-ordered association list with JS-`Map.set` semantics:
overwrite in place when the key exists, append otherwise. -/
def mapSet (k : Str) (v : SectionData) : List (Str × SectionData) → List (Str × SectionData)
  | [] => [(k, v)]
  | (k', v') :: rest =>
    if k' = k then (k, v) :: rest else (k', v') :: mapSet k v rest

/-- JS `Map.get`. -/
def lookupSec (k : Str) : List (Str × SectionData) → Option SectionData
  | [] => none
  | (k', v) :: rest => if k' = k then some v else lookupSec k rest

/-- The chapter-update inner loop (parser.ts:156-160): fold over every
heading marker, taking the label whenever its offset precedes the
anchor. -/
def chapterFold (parts : List (Str × Nat)) (apos : Nat) (ch0 : Str) : Str :=
  parts.foldl (fun ch q => if q.2 < apos then q.1 else ch) ch0

/-- The title search (parser.ts:163-170): scan the notes backwards, take
the first whose offset precedes the anchor at distance below 2000. -/
def findTitle (notes : List (Str × Nat)) (apos : Nat) : Str :=
  match notes.reverse.find? (fun q => decide (q.2 < apos ∧ apos - q.2 < 2000)) with
  | some q => q.1
  | none => []

/-- The per-anchor loop of `extractSections` (parser.ts:149-207),
carrying the `currentChapter` state and the accumulated map. -/
def sectionsLoop (html : Str) (parts notes : List (Str × Nat)) :
    Str → List (Str × SectionData) → List (Str × Nat) → List (Str × SectionData)
  | _, m, [] => m
  | ch0, m, (num, pos) :: restAnchors =>
    let nextPos := match restAnchors with
      | q :: _ => q.2
      | [] => html.length
    let chapter := chapterFold parts pos ch0
    let title := findTitle notes pos
    let text := sectionBody html num pos nextPos
    if text.length < 10 then sectionsLoop html parts notes chapter m restAnchors
    else
      sectionsLoop html parts notes chapter
        (mapSet num ⟨title, text.take 8000, chapter⟩ m) restAnchors

/-- Embedding of `extractSections` (parser.ts:115-210). -/
def extractSections (html : Str) : List (Str × SectionData) :=
  if (anchorsOf html).isEmpty then []
  else sectionsLoop html (partsOf html) (notesOf html) [] [] (anchorsOf html)

/-! Definition extractor (parser.ts:216-241). -/

/-- Process one `<p class="Definition">` block body (parser.ts:221-237). -/
def defOfBlock (sectionNum : Str) (defHtml : Str) : Option ParsedDefinition :=
  match firstMatch matchDfnAt defHtml with
  | none => none
  | some termRaw =>
    let term := stripHtml termRaw
    let d := stripHtml defHtml
    if term.isEmpty || d.isEmpty then none
    else some ⟨term, d, some ('s' :: sectionNum)⟩

/-- The ordered list of definition-block bodies found in the document. -/
def defBlocks (html : Str) : List Str :=
  (scanAll matchDefAt html).map (·.1)

/-- Embedding of `extractDefinitions` (parser.ts:216). -/
def extractDefinitions (html : Str) (sectionNum : Str) : List ParsedDefinition :=
  (defBlocks html).filterMap (defOfBlock sectionNum)

/-! Schedule extractor (parser.ts:248-324). -/

/-- Lower-case a label and delete its whitespace:
`scheduleLabel.toLowerCase().replace(/\s+/g, '')` (parser.ts:297). -/
def normLabel (l : Str) : Str :=
  (l.map Char.toLower).filter (fun c => !jsSpace c)

/-- The sub-provision reference suffix
(`/^(\d+(?:\.\d+)?)\s/` with a 20-character slug fallback, parser.ts:293). -/
def refOf (t : Str) : Str :=
  let d := t.takeWhile Char.isDigit
  if d.isEmpty then t.take 20
  else
    match t.drop d.length with
    | '.' :: r2 =>
      let d2 := r2.takeWhile Char.isDigit
      if d2.isEmpty then t.take 20
      else
        match r2.drop d2.length with
        | c :: _ => if jsSpace c then d ++ '.' :: d2 else t.take 20
        | [] => t.take 20
    | c :: _ => if jsSpace c then d else t.take 20
    | [] => t.take 20

/-- Pair each marker with the offset of the next one (or the region
end), the half-open-region rule used for both sections and schedule
sub-headings. -/
def withNext : List (α × Nat) → Nat → List (α × Nat × Nat)
  | [], _ => []
  | [(a, p)], endPos => [(a, p, endPos)]
  | (a, p) :: (b, q) :: rest, endPos => (a, p, q) :: withNext ((b, q) :: rest) endPos

/-- The chapter string attached to schedule provisions (parser.ts:298). -/
def schedChapter (label title : Str) : Str :=
  label ++ (if title.isEmpty then [] else " - ".data ++ title)

/-- The whole-schedule provision, emitted when a schedule has no
sub-headings and its content passes the floor (parser.ts:306-319). -/
def schedWhole (label title content : Str) : List ParsedProvision :=
  if 10 < content.length then
    [⟨schedNs ++ normLabel label,
      some (schedChapter label title),
      label,
      (if title.isEmpty then label else title),
      content.take 8000⟩]
  else []

/-- One sub-heading provision of a schedule (parser.ts:282-303). -/
def schedSub (label title : Str) (heading : Str) (content : Str) :
    Option ParsedProvision :=
  if 10 < content.length then
    some ⟨schedNs ++ normLabel label ++ '-' :: refOf heading,
      some (schedChapter label title),
      refOf heading, heading, content.take 8000⟩
  else none

/-- Process one schedule block body (parser.ts:256-320). -/
def processSchedule (scheduleHtml : Str) : List ParsedProvision :=
  match firstMatch matchSchedLabelAt scheduleHtml with
  | none => []
  | some labelRaw =>
    let scheduleLabel := stripHtml labelRaw
    let scheduleTitle := match firstMatch matchSchedTitleAt scheduleHtml with
      | some t => stripHtml t
      | none => []
    let headings := (scanAll matchSchedHeadAt scheduleHtml).map
      (fun q => (stripHtml q.1, q.2))
    if headings.isEmpty then
      schedWhole scheduleLabel scheduleTitle (stripHtml (gsub matchHistDivAt scheduleHtml))
    else
      (withNext headings scheduleHtml.length).filterMap (fun x =>
        schedSub scheduleLabel scheduleTitle x.1
          (stripHtml ((scheduleHtml.drop x.2.1).take (x.2.2 - x.2.1))))

/-- Embedding of `extractSchedules` (parser.ts:248): the `definitions` component is
declared but never written to, so it is always empty. -/
def extractSchedules (html : Str) : List ParsedProvision × List ParsedDefinition :=
  (((scanAll matchSchedAt html).map (·.1)).flatMap processSchedule, [])

/-! Document assembler (parser.ts:335-400). -/

/-- Conversion of a section-map entry into a provision
(parser.ts:364-372); an empty chapter becomes an absent field. -/
def toProvision (x : Str × SectionData) : ParsedProvision :=
  ⟨'s' :: x.1,
   (if x.2.chapter.isEmpty then none else some x.2.chapter),
   x.1, x.2.title, x.2.content⟩

/-- The soft-404 content check (parser.ts:340). -/
def isSoft404 (html : Str) : Bool :=
  containsSub html notFoundLit || containsSub html error404Lit

/-- Embedding of `parseFullTextHtml` (parser.ts:335-400). -/
def parseFullTextHtml (html : Str) (act : ActIndexEntry) : ParsedAct :=
  if isSoft404 html then
    ⟨act.id, statuteLit, act.title, act.title, act.shortName, act.status,
     act.issuedDate, act.inForceDate, act.url, act.title, [], []⟩
  else
    let description := extractDescription html act
    let currentTo := extractCurrentToDate html
    let sectionProvisions := (extractSections html).map toProvision
    let allDefs := extractDefinitions html ['2']
    let scheduleData := extractSchedules html
    ⟨act.id, statuteLit, act.title, act.title, act.shortName, act.status,
     act.issuedDate, act.inForceDate, act.url,
     (match currentTo with
      | some d => description ++ ". Current to ".data ++ d ++ ['.']
      | none => description),
     sectionProvisions ++ scheduleData.1,
     allDefs ++ scheduleData.2⟩

/-! Specification-side helpers used in the claim statements. -/

/-- Label of the last heading marker whose offset strictly precedes `p`,
or the empty string when none precedes it. -/
def lastBeforeD (parts : List (Str × Nat)) (p : Nat) : Str :=
  (((parts.filter (fun q => decide (q.2 < p))).getLast?).map Prod.fst).getD []

/-- Whether the region starting at an anchor survives the 10-character
floor (parser.ts:197). -/
def keepAnchor (html : Str) (num : Str) (pos npos : Nat) : Bool :=
  decide (10 ≤ (sectionBody html num pos npos).length)

/-- The section-map value an anchor occurrence produces. -/
def entryOf (html : Str) (num : Str) (pos npos : Nat) : SectionData :=
  ⟨findTitle (notesOf html) pos,
   (sectionBody html num pos npos).take 8000,
   lastBeforeD (partsOf html) pos⟩

/-- One step of the per-anchor fold, stateless form. -/
def sectionStep (html : Str) (m : List (Str × SectionData))
    (x : Str × Nat × Nat) : List (Str × SectionData) :=
  if keepAnchor html x.1 x.2.1 x.2.2 then
    mapSet x.1 (entryOf html x.1 x.2.1 x.2.2) m
  else m

/-- Surviving occurrence of a given section number: the anchor carries
the number and its region passes the length floor. -/
def survPred (html : Str) (num : Str) (y : Str × Nat × Nat) : Bool :=
  decide (y.1 = num) && keepAnchor html y.1 y.2.1 y.2.2

/-- Survival of an anchor occurrence, as a predicate on the paired form. -/
def keepPred (html : Str) (y : Str × Nat × Nat) : Bool :=
  keepAnchor html y.1 y.2.1 y.2.2

/-! Concrete inputs used by the witnesses and counterexamples.  Each is
small enough for the kernel to evaluate the full parsing pipeline. -/

/-- A fixed catalog entry for concrete runs. -/
def tAct : ActIndexEntry :=
  ⟨"test-act".data, "T-1".data, "Test Act".data, "Loi test".data, "TEST".data,
   ActStatus.in_force, "2000-01-01".data, "2000-01-02".data, "https://x".data⟩

/-- One well-formed section. -/
def W3 : Str := "id=\"s-1\"> 1 Short title text here".data

/-- A Part heading followed by one section. -/
def W4 : Str :=
  "<h2 class=\"Part\">PART I</h2> id=\"s-1\"> 1 Short title text here".data

/-- A marginal note 27 characters before its section anchor. -/
def W5 : Str :=
  "<p class=\"MarginalNote\">T</p> id=\"s-1\"> 1 Short title text here".data

/-- A soft-404 page that nonetheless carries well-formed content. -/
def W404 : Str :=
  "Error 404 id=\"s-1\"> 1 Short title text here".data

/-- One section and one schedule with a single sub-heading. -/
def H1 : Str :=
  ("id=\"s-1\"> 1 Short title text here <div class=\"Schedule\">" ++
   "<a class=\"scheduleLabel\">S 1</a><p class=\"SchedHeadL1\">1 aaaaaaaaaa</p></div>").data

/-- A schedule whose two sub-headings carry the same leading numeral. -/
def Wc1 : Str :=
  ("<div class=\"Schedule\"><a class=\"scheduleLabel\">S 1</a>" ++
   "<p class=\"SchedHeadL1\">1 aaaaaaaaaa</p>" ++
   "<p class=\"SchedHeadL1\">1 bbbbbbbbbb</p></div>").data

/-- The same anchor number at two offsets; the second region is below
the length floor. -/
def W9 : Str := "id=\"s-1\"> 1 First body text here id=\"s-1\"> x".data

/-- A section whose extracted body is exactly 10 characters long. -/
def W10 : Str := "id=\"s-1\"> 1 abcdefgh".data

/-- A page defining the same term twice, in two identical blocks. -/
def Wd : Str :=
  ("<p class=\"Definition\"><dfn>person</dfn> means someone.</p>" ++
   "<p class=\"Definition\"><dfn>person</dfn> means someone.</p>").data


/-! Generic properties of the scanning engine. -/

theorem mem_scanAllF_pos_le {tm : Str → Option (α × Nat)} :
    ∀ {fuel : Nat} {s : Str} {pos : Nat} {q : α × Nat},
      q ∈ scanAllF tm fuel s pos → pos ≤ q.2 := by
  intro fuel
  induction fuel with
  | zero => intro s pos q h; simp [scanAllF] at h
  | succ n ih =>
    intro s pos q h
    cases s with
    | nil => simp [scanAllF] at h
    | cons c rest =>
      rw [scanAllF] at h
      split at h
      next a len heq =>
        rcases List.mem_cons.mp h with h1 | h1
        · subst h1; exact le_refl _
        · have := ih h1; omega
      next heq => have := ih h; omega

theorem mem_scanAllF_capture {tm : Str → Option (α × Nat)} :
    ∀ {fuel : Nat} {s : Str} {pos : Nat} {q : α × Nat},
      q ∈ scanAllF tm fuel s pos → ∃ s' len, tm s' = some (q.1, len) := by
  intro fuel
  induction fuel with
  | zero => intro s pos q h; simp [scanAllF] at h
  | succ n ih =>
    intro s pos q h
    cases s with
    | nil => simp [scanAllF] at h
    | cons c rest =>
      rw [scanAllF] at h
      split at h
      next a len heq =>
        rcases List.mem_cons.mp h with h1 | h1
        · subst h1; exact ⟨c :: rest, len, heq⟩
        · exact ih h1
      next heq => exact ih h

theorem scanAllF_pairwise {tm : Str → Option (α × Nat)}
    (htm : ∀ s q, tm s = some q → 1 ≤ q.2) :
    ∀ {fuel : Nat} {s : Str} {pos : Nat},
      List.Pairwise (fun a b : α × Nat => a.2 < b.2) (scanAllF tm fuel s pos) := by
  intro fuel
  induction fuel with
  | zero => intro s pos; simp [scanAllF]
  | succ n ih =>
    intro s pos
    cases s with
    | nil => simp [scanAllF]
    | cons c rest =>
      rw [scanAllF]
      split
      next a len heq =>
        refine List.pairwise_cons.mpr ⟨?_, ih⟩
        intro q hq
        have h1 := mem_scanAllF_pos_le hq
        have h2 := htm _ _ heq
        simp only at h2 ⊢
        omega
      next heq => exact ih

/-! Lengths of individual matches: every matcher consumes at least one
character, so consecutive matches sit at strictly increasing offsets. -/

theorem matchAnchorAt_one_le {s : Str} {q : Str × Nat}
    (h : matchAnchorAt s = some q) : 1 ≤ q.2 := by
  have h6 : 1 ≤ anchorLit.length := by decide
  simp only [matchAnchorAt] at h
  split at h
  · split at h
    · exact absurd h (by simp)
    · split at h
      · split at h
        · cases h; simp only; omega
        · exact absurd h (by simp)
      all_goals
        split at h
        · cases h; simp only; omega
        · exact absurd h (by simp)
  · exact absurd h (by simp)

theorem matchHeaderOpen_one_le {s : Str} {k : Nat}
    (h : matchHeaderOpen s = some k) : 1 ≤ k := by
  simp only [matchHeaderOpen] at h
  split at h
  · split at h
    · split at h
      · cases h; omega
      · exact absurd h (by simp)
    · exact absurd h (by simp)
  · exact absurd h (by simp)

theorem matchPartAt_one_le {s : Str} {q : Str × Nat}
    (h : matchPartAt s = some q) : 1 ≤ q.2 := by
  simp only [matchPartAt] at h
  split at h
  · exact absurd h (by simp)
  next k hk =>
    rcases Option.map_eq_some'.mp h with ⟨p, _, hp2⟩
    have := matchHeaderOpen_one_le hk
    subst hp2; simp only; omega

theorem matchMnAt_one_le {s : Str} {q : Str × Nat}
    (h : matchMnAt s = some q) : 1 ≤ q.2 := by
  have h20 : 1 ≤ mnLit.length := by decide
  simp only [matchMnAt] at h
  split at h
  · split at h
    · exact absurd h (by simp)
    · split at h
      · split at h
        · cases h; simp only; omega
        · rcases Option.map_eq_some'.mp h with ⟨p, _, hp2⟩
          subst hp2; simp only; omega
      · rcases Option.map_eq_some'.mp h with ⟨p, _, hp2⟩
        subst hp2; simp only; omega
  · exact absurd h (by simp)

/-- Every captured anchor number begins with a digit (the regex capture
starts with `\d+`). -/
theorem matchAnchorAt_digit {s : Str} {q : Str × Nat}
    (h : matchAnchorAt s = some q) :
    ∃ c cs, q.1 = c :: cs ∧ c.isDigit := by
  simp only [matchAnchorAt] at h
  split at h
  · split at h
    next hds => exact absurd h (by simp)
    next hds =>
      have hmem : ∀ x ∈ (s.drop anchorLit.length).takeWhile Char.isDigit,
          x.isDigit := fun x hx => List.mem_takeWhile_imp hx
      rcases hne : (s.drop anchorLit.length).takeWhile Char.isDigit with _ | ⟨c, cs⟩
      · rw [hne] at hds; simp at hds
      · have hc : c.isDigit := by
          apply hmem; rw [hne]; exact List.mem_cons_self _ _
        rw [hne] at h
        split at h
        · split at h
          · cases h; exact ⟨c, _, rfl, hc⟩
          · exact absurd h (by simp)
        all_goals
          split at h
          · cases h; exact ⟨c, cs, rfl, hc⟩
          · exact absurd h (by simp)
  · exact absurd h (by simp)

/-! Association-list (JS `Map`) lemmas. -/

theorem mem_mapSet {k : Str} {v : SectionData} {m : List (Str × SectionData)}
    {x : Str × SectionData} (h : x ∈ mapSet k v m) : x = (k, v) ∨ x ∈ m := by
  induction m with
  | nil => simpa [mapSet] using h
  | cons y rest ih =>
    obtain ⟨k', v'⟩ := y
    rw [mapSet] at h
    split at h
    · rcases List.mem_cons.mp h with h1 | h1
      · exact Or.inl h1
      · exact Or.inr (List.mem_cons.mpr (Or.inr h1))
    · rcases List.mem_cons.mp h with h1 | h1
      · exact Or.inr (List.mem_cons.mpr (Or.inl h1))
      · rcases ih h1 with h2 | h2
        · exact Or.inl h2
        · exact Or.inr (List.mem_cons.mpr (Or.inr h2))

theorem mapSet_of_not_mem_keys {k : Str} {v : SectionData}
    {m : List (Str × SectionData)} (h : k ∉ m.map Prod.fst) :
    mapSet k v m = m ++ [(k, v)] := by
  induction m with
  | nil => rfl
  | cons y rest ih =>
    obtain ⟨k', v'⟩ := y
    simp only [List.map_cons, List.mem_cons] at h
    push_neg at h
    rw [mapSet, if_neg (fun hk => h.1 hk.symm), ih h.2, List.cons_append]

theorem keys_mapSet (k : Str) (v : SectionData) (m : List (Str × SectionData)) :
    (mapSet k v m).map Prod.fst = m.map Prod.fst
      ∨ (mapSet k v m).map Prod.fst = m.map Prod.fst ++ [k] := by
  induction m with
  | nil => exact Or.inr (by simp [mapSet])
  | cons y rest ih =>
    obtain ⟨k', v'⟩ := y
    rw [mapSet]
    split
    next hk => subst hk; exact Or.inl (by simp)
    next hk =>
      rcases ih with h1 | h1
      · exact Or.inl (by simp [h1])
      · exact Or.inr (by simp [h1])

theorem nodup_keys_mapSet {k : Str} {v : SectionData}
    {m : List (Str × SectionData)} (h : (m.map Prod.fst).Nodup) :
    ((mapSet k v m).map Prod.fst).Nodup := by
  induction m with
  | nil => simp [mapSet]
  | cons y rest ih =>
    obtain ⟨k', v'⟩ := y
    simp only [List.map_cons, List.nodup_cons] at h
    rw [mapSet]
    split
    next hk => subst hk; simp only [List.map_cons, List.nodup_cons]; exact h
    next hk =>
      simp only [List.map_cons, List.nodup_cons]
      refine ⟨?_, ih h.2⟩
      intro hmem
      rcases keys_mapSet k v rest with he | he
      · rw [he] at hmem; exact h.1 hmem
      · rw [he] at hmem
        rcases List.mem_append.mp hmem with h2 | h2
        · exact h.1 h2
        · simp only [List.mem_singleton] at h2; exact hk h2

theorem lookup_mapSet {k k' : Str} {v : SectionData}
    {m : List (Str × SectionData)} :
    lookupSec k' (mapSet k v m) = if k = k' then some v else lookupSec k' m := by
  induction m with
  | nil => simp [mapSet, lookupSec]
  | cons y rest ih =>
    obtain ⟨k0, v0⟩ := y
    rw [mapSet]
    split
    next hk =>
      subst hk
      by_cases h1 : k0 = k'
      · subst h1; simp [lookupSec]
      · simp [lookupSec, h1]
    next hk =>
      by_cases h1 : k0 = k'
      · subst h1
        rw [if_neg (fun he => hk he.symm)]
        simp [lookupSec]
      · simp only [lookupSec, if_neg h1, ih]

/-! From the backward title scan to "last satisfying element". -/

theorem find?_eq_head?_filter {p : α → Bool} :
    ∀ (l : List α), l.find? p = (l.filter p).head? := by
  intro l
  induction l with
  | nil => rfl
  | cons a rest ih =>
    by_cases h : p a
    · rw [List.find?_cons_of_pos _ h, List.filter_cons_of_pos h]; rfl
    · rw [List.find?_cons_of_neg _ h, List.filter_cons_of_neg h, ih]

theorem reverse_find?_eq_getLast?_filter {p : α → Bool} (l : List α) :
    l.reverse.find? p = (l.filter p).getLast? := by
  rw [find?_eq_head?_filter, List.filter_reverse, ← List.getLast?_eq_head?_reverse]

theorem findTitle_eq (notes : List (Str × Nat)) (apos : Nat) :
    findTitle notes apos =
      (((notes.filter (fun q => decide (q.2 < apos ∧ apos - q.2 < 2000))).getLast?).map
        Prod.fst).getD [] := by
  rw [findTitle, reverse_find?_eq_getLast?_filter]
  cases hx : (notes.filter (fun q => decide (q.2 < apos ∧ apos - q.2 < 2000))).getLast? with
  | none => rfl
  | some q => rfl

/-! The chapter state: the repeated forward fold of parser.ts:156-160
computes "label of the last heading preceding the anchor", and carrying
the state across anchors is harmless because anchors are scanned in
increasing position order. -/

theorem chapterFold_eq (parts : List (Str × Nat)) (p : Nat) (ch0 : Str) :
    chapterFold parts p ch0 =
      (((parts.filter (fun q => decide (q.2 < p))).getLast?).map Prod.fst).getD ch0 := by
  induction parts generalizing ch0 with
  | nil => rfl
  | cons x rest ih =>
    rw [chapterFold, List.foldl_cons, ← chapterFold]
    by_cases hx : x.2 < p
    · rw [if_pos hx, ih, List.filter_cons_of_pos (by simpa using hx)]
      cases hrest : rest.filter (fun q => decide (q.2 < p)) with
      | nil => simp
      | cons y ys =>
        rw [List.getLast?_cons_cons]
        obtain ⟨z, hz⟩ := Option.isSome_iff_exists.mp
          (List.getLast?_isSome.mpr (List.cons_ne_nil y ys))
        rw [hz]
        rfl
    · rw [if_neg hx, ih, List.filter_cons_of_neg (by simpa using hx)]

theorem chapterFold_lastBeforeD {parts : List (Str × Nat)} {q p : Nat}
    (hqp : q ≤ p) :
    chapterFold parts p (lastBeforeD parts q) = lastBeforeD parts p := by
  rw [chapterFold_eq]
  simp only [lastBeforeD]
  cases hfil : parts.filter (fun x => decide (x.2 < p)) with
  | cons y ys =>
    obtain ⟨z, hz⟩ := Option.isSome_iff_exists.mp
      (List.getLast?_isSome.mpr (List.cons_ne_nil y ys))
    rw [hz]
    rfl
  | nil =>
    have hq : parts.filter (fun x => decide (x.2 < q)) = [] := by
      refine List.filter_eq_nil_iff.mpr (fun a ha => ?_)
      have := List.filter_eq_nil_iff.mp hfil a ha
      simp only [decide_eq_true_eq] at this ⊢
      omega
    rw [hq]
    rfl

/-! Restating the stateful `sectionsLoop` as a stateless fold. -/

theorem sectionsLoop_single (html : Str) (parts notes : List (Str × Nat))
    (ch0 : Str) (m : List (Str × SectionData)) (num : Str) (pos : Nat) :
    sectionsLoop html parts notes ch0 m [(num, pos)]
      = (if (sectionBody html num pos html.length).length < 10 then m
        else
          mapSet num ⟨findTitle notes pos,
            (sectionBody html num pos html.length).take 8000,
            chapterFold parts pos ch0⟩ m) := rfl

theorem sectionsLoop_cons₂ (html : Str) (parts notes : List (Str × Nat))
    (ch0 : Str) (m : List (Str × SectionData)) (num : Str) (pos : Nat)
    (bn : Str) (bp : Nat) (bs : List (Str × Nat)) :
    sectionsLoop html parts notes ch0 m ((num, pos) :: (bn, bp) :: bs)
      = (if (sectionBody html num pos bp).length < 10 then
          sectionsLoop html parts notes (chapterFold parts pos ch0) m ((bn, bp) :: bs)
        else
          sectionsLoop html parts notes (chapterFold parts pos ch0)
            (mapSet num ⟨findTitle notes pos,
              (sectionBody html num pos bp).take 8000,
              chapterFold parts pos ch0⟩ m) ((bn, bp) :: bs)) := rfl

theorem withNext_single (x : α) (p e : Nat) :
    withNext [(x, p)] e = [(x, p, e)] := rfl

theorem withNext_cons_cons (x : α) (p : Nat) (y : α) (q : Nat)
    (bs : List (α × Nat)) (e : Nat) :
    withNext ((x, p) :: (y, q) :: bs) e = (x, p, q) :: withNext ((y, q) :: bs) e := rfl

theorem sectionStep_keep {html : Str} {m : List (Str × SectionData)}
    {num : Str} {pos np : Nat}
    (h : ¬ (sectionBody html num pos np).length < 10) :
    sectionStep html m (num, pos, np) = mapSet num (entryOf html num pos np) m := by
  rw [sectionStep]
  simp only [keepAnchor, decide_eq_true_eq]
  rw [if_pos (by omega)]

theorem sectionStep_skip {html : Str} {m : List (Str × SectionData)}
    {num : Str} {pos np : Nat}
    (h : (sectionBody html num pos np).length < 10) :
    sectionStep html m (num, pos, np) = m := by
  rw [sectionStep]
  simp only [keepAnchor, decide_eq_true_eq]
  rw [if_neg (by omega)]

theorem sectionsLoop_eq_foldl (html : Str) :
    ∀ (anchors : List (Str × Nat)) (ch0 : Str)
      (m : List (Str × SectionData)) (q : Nat),
      List.Pairwise (fun a b : Str × Nat => a.2 < b.2) anchors →
      (∀ a ∈ anchors, q ≤ a.2) →
      ch0 = lastBeforeD (partsOf html) q →
      sectionsLoop html (partsOf html) (notesOf html) ch0 m anchors
        = (withNext anchors html.length).foldl (sectionStep html) m := by
  intro anchors
  induction anchors with
  | nil => intro ch0 m q _ _ _; rfl
  | cons a rest ih =>
    intro ch0 m q hpw hge hch
    obtain ⟨num, pos⟩ := a
    have hqpos : q ≤ pos := hge _ (List.mem_cons_self _ _)
    have hchap : chapterFold (partsOf html) pos ch0 = lastBeforeD (partsOf html) pos := by
      rw [hch]; exact chapterFold_lastBeforeD hqpos
    have hposrest : ∀ b ∈ rest, pos ≤ b.2 := by
      intro b hb
      exact le_of_lt ((List.pairwise_cons.mp hpw).1 b hb)
    have hpwrest := (List.pairwise_cons.mp hpw).2
    cases rest with
    | nil =>
      rw [sectionsLoop_single, withNext_single, List.foldl_cons]
      by_cases hkeep : (sectionBody html num pos html.length).length < 10
      · rw [if_pos hkeep, sectionStep_skip hkeep]
        rfl
      · rw [if_neg hkeep, sectionStep_keep hkeep]
        have hentry : entryOf html num pos html.length
            = ⟨findTitle (notesOf html) pos,
                (sectionBody html num pos html.length).take 8000,
                chapterFold (partsOf html) pos ch0⟩ := by
          rw [entryOf, hchap]
        rw [hentry]
        rfl
    | cons b bs =>
      obtain ⟨bn, bp⟩ := b
      rw [sectionsLoop_cons₂, withNext_cons_cons, List.foldl_cons]
      by_cases hkeep : (sectionBody html num pos bp).length < 10
      · rw [if_pos hkeep, sectionStep_skip hkeep]
        exact ih (chapterFold (partsOf html) pos ch0) m pos hpwrest hposrest
          (by rw [hchap])
      · rw [if_neg hkeep, sectionStep_keep hkeep]
        have hentry : entryOf html num pos bp
            = ⟨findTitle (notesOf html) pos,
                (sectionBody html num pos bp).take 8000,
                chapterFold (partsOf html) pos ch0⟩ := by
          rw [entryOf, hchap]
        rw [← hentry]
        exact ih (chapterFold (partsOf html) pos ch0)
          (mapSet num (entryOf html num pos bp) m) pos hpwrest hposrest
          (by rw [hchap])

/-- Restating `extractSections` as a stateless fold over anchors paired with their
region ends. -/
theorem extractSections_eq_foldl (html : Str) :
    extractSections html
      = (withNext (anchorsOf html) html.length).foldl (sectionStep html) [] := by
  have hlb : ([] : Str) = lastBeforeD (partsOf html) 0 := by
    rw [lastBeforeD]
    have h0 : (partsOf html).filter (fun q => decide (q.2 < 0)) = [] :=
      List.filter_eq_nil_iff.mpr (fun x _ => by simp)
    rw [h0]; rfl
  by_cases hemp : (anchorsOf html).isEmpty
  · rw [extractSections, if_pos hemp, List.isEmpty_iff.mp hemp]
    rfl
  · rw [extractSections, if_neg hemp]
    exact sectionsLoop_eq_foldl html (anchorsOf html) [] [] 0
      (scanAllF_pairwise (fun s q h => matchAnchorAt_one_le h))
      (fun a _ => Nat.zero_le _) hlb

/-! Membership, key-uniqueness and lookup facts about the section map. -/

theorem mem_foldl_sectionStep {html : Str} :
    ∀ {L : List (Str × Nat × Nat)} {m : List (Str × SectionData)}
      {x : Str × SectionData},
      x ∈ L.foldl (sectionStep html) m →
      x ∈ m ∨ ∃ y ∈ L, keepAnchor html y.1 y.2.1 y.2.2
        ∧ x = (y.1, entryOf html y.1 y.2.1 y.2.2) := by
  intro L
  induction L with
  | nil => intro m x h; exact Or.inl h
  | cons y rest ih =>
    intro m x h
    rw [List.foldl_cons] at h
    rcases ih h with h1 | ⟨z, hz, hkeep, hx⟩
    · rw [sectionStep] at h1
      split at h1
      next hk =>
        rcases mem_mapSet h1 with h2 | h2
        · exact Or.inr ⟨y, List.mem_cons_self _ _, by
            obtain ⟨y1, y2, y3⟩ := y; exact hk, by
            obtain ⟨y1, y2, y3⟩ := y; exact h2⟩
        · exact Or.inl h2
      next hk => exact Or.inl h1
    · exact Or.inr ⟨z, List.mem_cons.mpr (Or.inr hz), hkeep, hx⟩

theorem nodup_keys_foldl_sectionStep {html : Str} :
    ∀ {L : List (Str × Nat × Nat)} {m : List (Str × SectionData)},
      (m.map Prod.fst).Nodup →
      ((L.foldl (sectionStep html) m).map Prod.fst).Nodup := by
  intro L
  induction L with
  | nil => intro m h; exact h
  | cons y rest ih =>
    intro m h
    rw [List.foldl_cons]
    apply ih
    rw [sectionStep]
    split
    · exact nodup_keys_mapSet h
    · exact h

theorem sectionStep_of_keep {html : Str} {m : List (Str × SectionData)}
    {y : Str × Nat × Nat} (hk : keepAnchor html y.1 y.2.1 y.2.2 = true) :
    sectionStep html m y = mapSet y.1 (entryOf html y.1 y.2.1 y.2.2) m := by
  rw [sectionStep, if_pos hk]

theorem sectionStep_of_skip {html : Str} {m : List (Str × SectionData)}
    {y : Str × Nat × Nat} (hk : keepAnchor html y.1 y.2.1 y.2.2 = false) :
    sectionStep html m y = m := by
  rw [sectionStep, if_neg]
  rw [hk]
  simp

theorem lookup_foldl_sectionStep {html : Str} {num : Str} :
    ∀ {L : List (Str × Nat × Nat)} {m : List (Str × SectionData)},
      lookupSec num (L.foldl (sectionStep html) m)
        = match (L.filter (survPred html num)).getLast? with
          | some y => some (entryOf html y.1 y.2.1 y.2.2)
          | none => lookupSec num m := by
  intro L
  induction L with
  | nil => intro m; rfl
  | cons y rest ih =>
    intro m
    rw [List.foldl_cons, ih]
    by_cases hp : survPred html num y = true
    · rw [List.filter_cons_of_pos hp]
      have hkey : y.1 = num := by
        have := hp
        rw [survPred, Bool.and_eq_true, decide_eq_true_eq] at this
        exact this.1
      have hkeep : keepAnchor html y.1 y.2.1 y.2.2 = true := by
        have := hp
        rw [survPred, Bool.and_eq_true] at this
        exact this.2
      cases hfil : rest.filter (survPred html num) with
      | cons z zs =>
        rw [List.getLast?_cons_cons]
        obtain ⟨w, hw⟩ := Option.isSome_iff_exists.mp
          (List.getLast?_isSome.mpr (List.cons_ne_nil z zs))
        rw [hw]
      | nil =>
        show lookupSec num (sectionStep html m y)
          = (match [y].getLast? with
            | some y => some (entryOf html y.1 y.2.1 y.2.2)
            | none => lookupSec num m)
        rw [sectionStep_of_keep hkeep, lookup_mapSet, if_pos hkey]
        rfl
    · rw [List.filter_cons_of_neg (by simpa using hp)]
      cases hfil : rest.filter (survPred html num) with
      | cons z zs =>
        obtain ⟨w, hw⟩ := Option.isSome_iff_exists.mp
          (List.getLast?_isSome.mpr (List.cons_ne_nil z zs))
        rw [hw]
      | nil =>
        show lookupSec num (sectionStep html m y) = lookupSec num m
        by_cases hkc : keepAnchor html y.1 y.2.1 y.2.2 = true
        · have hkey : ¬ y.1 = num := by
            intro he
            apply hp
            rw [survPred, Bool.and_eq_true, decide_eq_true_eq]
            exact ⟨he, hkc⟩
          rw [sectionStep_of_keep hkc, lookup_mapSet, if_neg hkey]
        · rw [sectionStep_of_skip (by
            cases hb : keepAnchor html y.1 y.2.1 y.2.2
            · rfl
            · exact absurd hb hkc)]

/-! The `withNext` pairing projects back onto the marker list. -/

theorem mem_withNext {L : List (α × Nat)} {e : Nat} {y : α × Nat × Nat} :
    y ∈ withNext L e → (y.1, y.2.1) ∈ L := by
  induction L with
  | nil => intro h; exact absurd h (List.not_mem_nil _)
  | cons a rest ih =>
    obtain ⟨x, p⟩ := a
    cases rest with
    | nil =>
      intro h
      rw [withNext] at h
      rcases List.mem_singleton.mp h with rfl
      simp
    | cons b bs =>
      obtain ⟨bn, bp⟩ := b
      intro h
      rw [withNext] at h
      rcases List.mem_cons.mp h with h1 | h1
      · subst h1; simp
      · exact List.mem_cons.mpr (Or.inr (ih h1))

theorem withNext_keys {L : List (α × Nat)} {e : Nat} :
    (withNext L e).map (fun y => y.1) = L.map Prod.fst := by
  induction L with
  | nil => rfl
  | cons a rest ih =>
    obtain ⟨x, p⟩ := a
    cases rest with
    | nil => rfl
    | cons b bs =>
      obtain ⟨bn, bp⟩ := b
      rw [withNext]
      simpa using ih

/-! When the anchor numbers are pairwise distinct, the fold is a plain
append in scan order: later anchors never overwrite earlier entries. -/

theorem foldl_sectionStep_of_nodup {html : Str} :
    ∀ {L : List (Str × Nat × Nat)} {m : List (Str × SectionData)},
      (m.map Prod.fst ++ L.map (fun y => y.1)).Nodup →
      L.foldl (sectionStep html) m
        = m ++ (L.filter (keepPred html)).map
            (fun y => (y.1, entryOf html y.1 y.2.1 y.2.2)) := by
  intro L
  induction L with
  | nil => intro m _; simp
  | cons y rest ih =>
    intro m hnd
    rw [List.foldl_cons]
    by_cases hk : keepPred html y = true
    · have hnotin : y.1 ∉ m.map Prod.fst := by
        rcases List.nodup_append.mp hnd with ⟨_, _, hdisj⟩
        intro hmem
        exact hdisj hmem (by simp)
      have hk' : keepAnchor html y.1 y.2.1 y.2.2 = true := hk
      rw [sectionStep_of_keep hk', mapSet_of_not_mem_keys hnotin,
        List.filter_cons_of_pos hk, List.map_cons]
      rw [ih (by
        rw [List.map_append]
        simp only [List.map_cons] at hnd
        simpa [List.append_assoc] using hnd)]
      simp
    · have hk' : keepAnchor html y.1 y.2.1 y.2.2 = false := by
        cases hb : keepAnchor html y.1 y.2.1 y.2.2
        · rfl
        · exact absurd hb (by rw [keepPred] at hk; exact fun hh => hk (hb ▸ hh ▸ rfl))
      rw [sectionStep_of_skip hk', List.filter_cons_of_neg hk]
      apply ih
      refine List.Nodup.sublist ?_ hnd
      apply List.Sublist.append_left
      simp only [List.map_cons]
      exact List.sublist_cons_self (y.1) (rest.map (fun y => y.1))

/-! Shape of every schedule-derived provision. -/

theorem mem_schedWhole {label title content : Str} {p : ParsedProvision}
    (h : p ∈ schedWhole label title content) :
    (∃ c : Str, 10 < c.length ∧ p.content = c.take 8000)
      ∧ (∃ r : Str, p.provision_ref = schedNs ++ r)
      ∧ 10 < p.content.length := by
  rw [schedWhole] at h
  split at h
  next hlen =>
    rw [List.mem_singleton] at h
    subst h
    refine ⟨⟨content, hlen, rfl⟩, ⟨_, rfl⟩, ?_⟩
    simp only [List.length_take]
    omega
  next hlen => exact absurd h (by simp)

theorem schedSub_some {label title heading content : Str} {p : ParsedProvision}
    (h : schedSub label title heading content = some p) :
    (∃ c : Str, 10 < c.length ∧ p.content = c.take 8000)
      ∧ (∃ r : Str, p.provision_ref = schedNs ++ r)
      ∧ 10 < p.content.length := by
  rw [schedSub] at h
  split at h
  next hlen =>
    cases h
    refine ⟨⟨content, hlen, rfl⟩, ⟨_, rfl⟩, ?_⟩
    simp only [List.length_take]
    omega
  next hlen => exact absurd h (by simp)

theorem mem_processSchedule {sh : Str} {p : ParsedProvision}
    (h : p ∈ processSchedule sh) :
    (∃ c : Str, 10 < c.length ∧ p.content = c.take 8000)
      ∧ (∃ r : Str, p.provision_ref = schedNs ++ r)
      ∧ 10 < p.content.length := by
  simp only [processSchedule] at h
  split at h
  · exact absurd h (by simp)
  next labelRaw hlab =>
    split at h
    · exact mem_schedWhole h
    · rw [List.mem_filterMap] at h
      obtain ⟨x, hx, hfx⟩ := h
      exact schedSub_some hfx

theorem mem_extractSchedules {html : Str} {p : ParsedProvision}
    (h : p ∈ (extractSchedules html).1) :
    (∃ c : Str, 10 < c.length ∧ p.content = c.take 8000)
      ∧ (∃ r : Str, p.provision_ref = schedNs ++ r)
      ∧ 10 < p.content.length := by
  rw [extractSchedules] at h
  rcases List.mem_flatMap.mp h with ⟨sh, _, hp⟩
  exact mem_processSchedule hp

/-! Definition-extractor facts. -/

theorem defOfBlock_source {sn b : Str} {d : ParsedDefinition}
    (h : defOfBlock sn b = some d) : d.source_provision = some ('s' :: sn) := by
  simp only [defOfBlock] at h
  split at h
  · exact absurd h (by simp)
  · split at h
    · exact absurd h (by simp)
    · simp only [Option.some.injEq] at h
      subst h
      rfl

theorem filterMap_eq_filter_map {f : α → Option β} (dflt : β) :
    ∀ L : List α,
      L.filterMap f
        = (L.filter (fun b => (f b).isSome)).map (fun b => (f b).getD dflt) := by
  intro L
  induction L with
  | nil => rfl
  | cons a rest ih =>
    cases hf : f a with
    | some v => simp [List.filterMap_cons, hf, ih]
    | none => simp [List.filterMap_cons, hf, ih]

/-! Assembler equations. -/

theorem parse_not404 {html : Str} {act : ActIndexEntry}
    (h : isSoft404 html = false) :
    (parseFullTextHtml html act).provisions
        = (extractSections html).map toProvision ++ (extractSchedules html).1
      ∧ (parseFullTextHtml html act).definitions
        = extractDefinitions html ['2'] ++ (extractSchedules html).2 := by
  rw [parseFullTextHtml, if_neg (fun hc => Bool.false_ne_true (h.symm.trans hc))]
  exact ⟨rfl, rfl⟩

theorem parse_404 {html : Str} {act : ActIndexEntry}
    (h : isSoft404 html = true) :
    parseFullTextHtml html act
      = ⟨act.id, statuteLit, act.title, act.title, act.shortName, act.status,
         act.issuedDate, act.inForceDate, act.url, act.title, [], []⟩ := by
  rw [parseFullTextHtml, if_pos h]

/-! The claims. -/

/-- Claim C2: when the input contains either literal failure marker, the
parse short-circuits to the CatalogEntry's static fields with empty
provision and definition sequences, whatever else the page contains. -/
theorem claim2_soft404 (html : Str) (act : ActIndexEntry)
    (h : containsSub html notFoundLit = true ∨ containsSub html error404Lit = true) :
    (parseFullTextHtml html act).provisions = []
      ∧ (parseFullTextHtml html act).definitions = []
      ∧ parseFullTextHtml html act
        = ⟨act.id, statuteLit, act.title, act.title, act.shortName, act.status,
           act.issuedDate, act.inForceDate, act.url, act.title, [], []⟩ := by
  have h404 : isSoft404 html = true := by
    rw [isSoft404]
    rcases h with h | h <;> simp [h]
  rw [parse_404 h404]
  exact ⟨rfl, rfl, rfl⟩

set_option maxRecDepth 100000 in
/-- Witness for C2: a page containing `Error 404` together with a
well-formed section still parses to the empty-bodied static record. -/
theorem claim2_soft404_witness :
    (containsSub W404 error404Lit = true)
      ∧ (parseFullTextHtml W404 tAct).provisions = []
      ∧ (parseFullTextHtml W404 tAct).definitions = [] := by
  refine ⟨by decide, ?_, ?_⟩
  · exact (claim2_soft404 W404 tAct (Or.inr (by decide))).1
  · exact (claim2_soft404 W404 tAct (Or.inr (by decide))).2.1

/-- Claim C8: the parser is deterministic — it is a pure function of the
page text and the catalog entry, so two runs on the same input are
structurally identical (the embedding is side-effect-free, as is the
source apart from a diagnostic log line). -/
theorem claim8_deterministic (html : Str) (act : ActIndexEntry) :
    parseFullTextHtml html act = parseFullTextHtml html act ∧
      (parseFullTextHtml html act).provisions = (parseFullTextHtml html act).provisions ∧
      (parseFullTextHtml html act).definitions = (parseFullTextHtml html act).definitions :=
  ⟨rfl, rfl, rfl⟩

/-- Claim C3: every provision the parser retains (section- or
schedule-derived) is the 8000-character cap of a pre-cap text of at
least 10 characters, and the stored content never exceeds 8000
characters. -/
theorem claim3_lengths (html : Str) (act : ActIndexEntry) (p : ParsedProvision)
    (hp : p ∈ (parseFullTextHtml html act).provisions) :
    (∃ t : Str, 10 ≤ t.length ∧ p.content = t.take 8000)
      ∧ p.content.length ≤ 8000 := by
  cases h404 : isSoft404 html with
  | true =>
    rw [parse_404 h404] at hp
    exact absurd hp (by simp)
  | false =>
    rw [(parse_not404 h404).1] at hp
    rcases List.mem_append.mp hp with hsec | hsch
    · rw [List.mem_map] at hsec
      obtain ⟨x, hx, hxp⟩ := hsec
      rw [extractSections_eq_foldl] at hx
      rcases mem_foldl_sectionStep hx with h0 | ⟨y, hy, hk, hxy⟩
      · exact absurd h0 (by simp)
      · rw [hxy] at hxp
        rw [← hxp]
        rw [keepAnchor, decide_eq_true_eq] at hk
        simp only [toProvision, entryOf]
        refine ⟨⟨sectionBody html y.1 y.2.1 y.2.2, hk, rfl⟩, ?_⟩
        rw [List.length_take]
        exact min_le_left _ _
    · obtain ⟨⟨c, hc, hpc⟩, _, _⟩ := mem_extractSchedules hsch
      refine ⟨⟨c, by omega, hpc⟩, ?_⟩
      rw [hpc, List.length_take]
      exact min_le_left _ _

set_option maxRecDepth 100000 in
/-- Witness for C3 at a concrete one-section page. -/
theorem claim3_lengths_witness :
    ((⟨"s1".data, none, "1".data, [], "1 Short title text here".data⟩ : ParsedProvision)
        ∈ (parseFullTextHtml W3 tAct).provisions)
      ∧ (∃ t : Str, 10 ≤ t.length
          ∧ ("1 Short title text here".data : Str) = t.take 8000)
      ∧ ("1 Short title text here".data : Str).length ≤ 8000 := by
  refine ⟨by decide, ?_⟩
  exact claim3_lengths W3 tAct
    ⟨"s1".data, none, "1".data, [], "1 Short title text here".data⟩ (by decide)

/-- Claim C4: heading markers are collected in strictly increasing
offset order, and every retained section's chapter equals the label of
the last heading marker whose offset strictly precedes some occurrence
of that section's anchor (the empty string when no heading precedes
it). -/
theorem claim4_chapter (html : Str) :
    List.Pairwise (fun a b : Str × Nat => a.2 < b.2) (partsOf html)
      ∧ ∀ x ∈ extractSections html,
          ∃ pos npos : Nat,
            ((x.1, pos, npos) ∈ withNext (anchorsOf html) html.length)
              ∧ x.2.chapter = lastBeforeD (partsOf html) pos := by
  constructor
  · rw [partsOf, List.pairwise_map]
    exact scanAllF_pairwise (fun s q h => matchPartAt_one_le h)
  · intro x hx
    rw [extractSections_eq_foldl] at hx
    rcases mem_foldl_sectionStep hx with h0 | ⟨y, hy, hk, hxy⟩
    · exact absurd h0 (by simp)
    · subst hxy
      exact ⟨y.2.1, y.2.2, hy, rfl⟩

set_option maxRecDepth 100000 in
/-- Witness for C4: a section preceded by a `PART I` heading receives
that label as its chapter. -/
theorem claim4_chapter_witness :
    ((("1".data : Str),
        (⟨[], "1 Short title text here".data, "PART I".data⟩ : SectionData))
        ∈ extractSections W4)
      ∧ ∃ pos npos : Nat,
          ((("1".data : Str), pos, npos) ∈ withNext (anchorsOf W4) W4.length)
            ∧ ("PART I".data : Str) = lastBeforeD (partsOf W4) pos := by
  refine ⟨by decide, ?_⟩
  exact (claim4_chapter W4).2
    ("1".data, ⟨[], "1 Short title text here".data, "PART I".data⟩) (by decide)

/-- Claim C5: marginal notes are collected in strictly increasing offset
order, and every retained section's title is the nearest preceding
non-empty, non-placeholder note at offset distance strictly below 2000
characters (the last such note in document order), or the empty string
when none qualifies. -/
theorem claim5_title (html : Str) :
    List.Pairwise (fun a b : Str × Nat => a.2 < b.2) (notesOf html)
      ∧ ∀ x ∈ extractSections html,
          ∃ pos npos : Nat,
            ((x.1, pos, npos) ∈ withNext (anchorsOf html) html.length)
              ∧ x.2.title
                = ((((notesOf html).filter
                    (fun q => decide (q.2 < pos ∧ pos - q.2 < 2000))).getLast?).map
                      Prod.fst).getD [] := by
  constructor
  · rw [notesOf]
    refine List.Pairwise.sublist (List.filter_sublist _) ?_
    rw [List.pairwise_map]
    exact scanAllF_pairwise (fun s q h => matchMnAt_one_le h)
  · intro x hx
    rw [extractSections_eq_foldl] at hx
    rcases mem_foldl_sectionStep hx with h0 | ⟨y, hy, hk, hxy⟩
    · exact absurd h0 (by simp)
    · subst hxy
      refine ⟨y.2.1, y.2.2, hy, ?_⟩
      show findTitle (notesOf html) y.2.1 = _
      rw [findTitle_eq]

set_option maxRecDepth 100000 in
/-- Witness for C5: a note 27 characters before the anchor is attached
as the section title. -/
theorem claim5_title_witness :
    ((("1".data : Str),
        (⟨"T".data, "1 Short title text here".data, []⟩ : SectionData))
        ∈ extractSections W5)
      ∧ ∃ pos npos : Nat,
          ((("1".data : Str), pos, npos) ∈ withNext (anchorsOf W5) W5.length)
            ∧ ("T".data : Str)
              = ((((notesOf W5).filter
                  (fun q => decide (q.2 < pos ∧ pos - q.2 < 2000))).getLast?).map
                    Prod.fst).getD [] := by
  refine ⟨by decide, ?_⟩
  exact (claim5_title W5).2
    ("1".data, ⟨"T".data, "1 Short title text here".data, []⟩) (by decide)

/-- Keys of the section map are pairwise distinct. -/
theorem extractSections_keys_nodup (html : Str) :
    ((extractSections html).map Prod.fst).Nodup := by
  rw [extractSections_eq_foldl]
  exact nodup_keys_foldl_sectionStep (by simp)

/-- Every key of the section map is a captured anchor number and begins
with a digit. -/
theorem extractSections_key_digit {html : Str} {x : Str × SectionData}
    (hx : x ∈ extractSections html) : ∃ c cs, x.1 = c :: cs ∧ c.isDigit := by
  rw [extractSections_eq_foldl] at hx
  rcases mem_foldl_sectionStep hx with h0 | ⟨y, hy, hk, hxy⟩
  · exact absurd h0 (by simp)
  · have hanch : (y.1, y.2.1) ∈ anchorsOf html := mem_withNext hy
    obtain ⟨s', len, hcap⟩ := mem_scanAllF_capture hanch
    obtain ⟨c, cs, hnum, hdig⟩ := matchAnchorAt_digit hcap
    rw [hxy]
    exact ⟨c, cs, hnum, hdig⟩

/-- Claim C1 (amended): section-derived keys are pairwise distinct and
never equal a schedule-derived key (the two namespaces are disjoint:
`s` + digit versus `sched-`); schedule-derived keys, however, are not
guaranteed pairwise distinct. -/
theorem claim1_refs (html : Str) (act : ActIndexEntry) :
    ((extractSections html).map (fun x => 's' :: x.1)).Nodup
      ∧ (∀ p ∈ (extractSchedules html).1, ∃ r : Str, p.provision_ref = schedNs ++ r)
      ∧ (∀ x ∈ extractSections html, ∀ r : Str, ('s' :: x.1 : Str) ≠ schedNs ++ r)
      ∧ (isSoft404 html = false →
          (parseFullTextHtml html act).provisions
            = (extractSections html).map toProvision ++ (extractSchedules html).1) := by
  refine ⟨?_, ?_, ?_, fun h => (parse_not404 h).1⟩
  · have h1 : ((extractSections html).map (fun x => 's' :: x.1))
        = ((extractSections html).map Prod.fst).map (fun s => 's' :: s) := by
      rw [List.map_map]
      rfl
    rw [h1]
    refine List.Nodup.map ?_ (extractSections_keys_nodup html)
    intro a b hab
    exact (List.cons.injEq _ _ _ _).mp hab |>.2
  · intro p hp
    exact (mem_extractSchedules hp).2.1
  · intro x hx r heq
    obtain ⟨c, cs, hnum, hdig⟩ := extractSections_key_digit hx
    rw [hnum] at heq
    have hns : schedNs = 's' :: 'c' :: 'h' :: 'e' :: 'd' :: '-' :: [] := rfl
    rw [hns] at heq
    simp only [List.cons_append, List.nil_append, List.cons.injEq] at heq
    obtain ⟨-, hc, -⟩ := heq
    rw [hc] at hdig
    exact absurd hdig (by decide)

set_option maxRecDepth 100000 in
/-- Counterexample for C1 as stated: a schedule whose two sub-headings
share the leading numeral `1` yields two provisions with the identical
reference key `sched-s1-1`, so keys are not pairwise distinct. -/
theorem claim1_counterexample :
    ((parseFullTextHtml Wc1 tAct).provisions.map (fun p => p.provision_ref))
        = ["sched-s1-1".data, "sched-s1-1".data]
      ∧ ¬ ((parseFullTextHtml Wc1 tAct).provisions.map
            (fun p => p.provision_ref)).Nodup := by
  exact ⟨by decide, by decide⟩

set_option maxRecDepth 100000 in
/-- Witness for the amended C1 at a page with one section and one
schedule sub-provision. -/
theorem claim1_refs_witness :
    ((extractSections H1).map (fun x => 's' :: x.1)).Nodup
      ∧ (∃ r : Str,
          ("sched-s1-1".data : Str) = schedNs ++ r)
      ∧ (('s' :: ("1".data : Str) : Str) ≠ schedNs ++ "s1-1".data)
      ∧ (parseFullTextHtml H1 tAct).provisions
          = (extractSections H1).map toProvision ++ (extractSchedules H1).1 := by
  refine ⟨(claim1_refs H1 tAct).1, ?_, ?_, (claim1_refs H1 tAct).2.2.2 (by decide)⟩
  · exact (claim1_refs H1 tAct).2.1
      ⟨"sched-s1-1".data, some ("S 1".data), "1".data, "1 aaaaaaaaaa".data,
        "1 aaaaaaaaaa".data⟩ (by decide)
  · exact (claim1_refs H1 tAct).2.2.1
      ("1".data, ⟨[], "1 Short title text here".data, []⟩) (by decide) ("s1-1".data)

/-- Claim C6: every emitted definition carries the fixed back-reference
(`s` + the section number the extractor was invoked with, `s2` at the
top level), never the section that actually contains it; and the
extractor keeps one definition per qualifying block in encounter order,
without merging duplicates. -/
theorem claim6_definitions (html : Str) (act : ActIndexEntry) (sn : Str) :
    (∀ d ∈ (parseFullTextHtml html act).definitions,
        d.source_provision = some ('s' :: '2' :: []))
      ∧ extractDefinitions html sn
        = ((defBlocks html).filter (fun b => (defOfBlock sn b).isSome)).map
            (fun b => (defOfBlock sn b).getD ⟨[], [], none⟩)
      ∧ (∀ d ∈ extractDefinitions html sn, d.source_provision = some ('s' :: sn)) := by
  refine ⟨?_, filterMap_eq_filter_map _ _, ?_⟩
  · intro d hd
    cases h404 : isSoft404 html with
    | true =>
      rw [parse_404 h404] at hd
      exact absurd hd (by simp)
    | false =>
      rw [(parse_not404 h404).2] at hd
      rcases List.mem_append.mp hd with h1 | h1
      · rw [extractDefinitions, List.mem_filterMap] at h1
        obtain ⟨b, _, hb⟩ := h1
        exact defOfBlock_source hb
      · exact absurd h1 (by simp [extractSchedules])
  · intro d hd
    rw [extractDefinitions, List.mem_filterMap] at hd
    obtain ⟨b, _, hb⟩ := hd
    exact defOfBlock_source hb

set_option maxRecDepth 100000 in
/-- Witness for C6: a page defining `person` twice in two identical
blocks yields both copies, in order, each tagged `s2`. -/
theorem claim6_definitions_witness :
    (parseFullTextHtml Wd tAct).definitions
        = [⟨"person".data, "person means someone.".data, some ("s2".data)⟩,
           ⟨"person".data, "person means someone.".data, some ("s2".data)⟩]
      ∧ (∀ d ∈ (parseFullTextHtml Wd tAct).definitions,
          d.source_provision = some ('s' :: '2' :: [])) := by
  exact ⟨by decide, (claim6_definitions Wd tAct ['2']).1⟩

/-- Claim C7: outside the soft-404 short-circuit the provision sequence
is the section provisions followed by the schedule provisions, the
definitions are a separate sequence, and (given pairwise-distinct anchor
numbers) the section provisions appear in anchor scan order. -/
theorem claim7_ordering (html : Str) (act : ActIndexEntry)
    (h : isSoft404 html = false) :
    (parseFullTextHtml html act).provisions
        = (extractSections html).map toProvision ++ (extractSchedules html).1
      ∧ (parseFullTextHtml html act).definitions
        = extractDefinitions html ['2'] ++ (extractSchedules html).2
      ∧ (((anchorsOf html).map Prod.fst).Nodup →
          extractSections html
            = ((withNext (anchorsOf html) html.length).filter (keepPred html)).map
                (fun y => (y.1, entryOf html y.1 y.2.1 y.2.2))) := by
  refine ⟨(parse_not404 h).1, (parse_not404 h).2, ?_⟩
  intro hnd
  rw [extractSections_eq_foldl]
  rw [foldl_sectionStep_of_nodup (by
    rw [List.map_nil, List.nil_append, withNext_keys]
    exact hnd)]
  rw [List.nil_append]

set_option maxRecDepth 100000 in
/-- Witness for C7 at the one-section one-schedule page. -/
theorem claim7_ordering_witness :
    (isSoft404 H1 = false)
      ∧ (parseFullTextHtml H1 tAct).provisions
          = (extractSections H1).map toProvision ++ (extractSchedules H1).1
      ∧ (parseFullTextHtml H1 tAct).definitions
          = extractDefinitions H1 ['2'] ++ (extractSchedules H1).2
      ∧ extractSections H1
          = ((withNext (anchorsOf H1) H1.length).filter (keepPred H1)).map
              (fun y => (y.1, entryOf H1 y.1 y.2.1 y.2.2)) := by
  refine ⟨by decide, (claim7_ordering H1 tAct (by decide)).1,
    (claim7_ordering H1 tAct (by decide)).2.1,
    (claim7_ordering H1 tAct (by decide)).2.2 (by decide)⟩

/-- Claim C9 (amended): the map holds at most one entry per section
number; its data comes from the last occurrence in document order whose
region text survives the 10-character floor — a later occurrence that
falls below the floor does not overwrite an earlier surviving one. -/
theorem claim9_last_surviving (html : Str) (num : Str) :
    ((extractSections html).map Prod.fst).Nodup
      ∧ lookupSec num (extractSections html)
        = (((withNext (anchorsOf html) html.length).filter
              (survPred html num)).getLast?).map
            (fun y => entryOf html y.1 y.2.1 y.2.2) := by
  refine ⟨extractSections_keys_nodup html, ?_⟩
  rw [extractSections_eq_foldl, lookup_foldl_sectionStep]
  cases hl : ((withNext (anchorsOf html) html.length).filter
      (survPred html num)).getLast? with
  | none => rfl
  | some y => rfl

set_option maxRecDepth 100000 in
/-- Counterexample for C9 as stated: the anchor number `1` occurs at
offsets 0 and 33; the second region (`x`) is below the floor, so the
stored entry is computed from the FIRST occurrence's region, not the
last one's. -/
theorem claim9_counterexample :
    anchorsOf W9 = [("1".data, 0), ("1".data, 33)]
      ∧ lookupSec ("1".data) (extractSections W9) = some (entryOf W9 ("1".data) 0 33)
      ∧ entryOf W9 ("1".data) 0 33 ≠ entryOf W9 ("1".data) 33 W9.length
      ∧ (sectionBody W9 ("1".data) 33 W9.length).length < 10 := by
  exact ⟨by decide, by decide, by decide, by decide⟩

/-- Claim C10: a schedule-derived provision is emitted only when its
normalized content is strictly longer than 10 characters (length exactly
10 is dropped), whereas a section whose body is exactly 10 characters is
retained in the section map. -/
theorem claim10_floor (html : Str) :
    (∀ p ∈ (extractSchedules html).1,
        (∃ c : Str, 10 < c.length ∧ p.content = c.take 8000)
          ∧ 10 < p.content.length)
      ∧ (∀ y ∈ withNext (anchorsOf html) html.length,
          (sectionBody html y.1 y.2.1 y.2.2).length = 10 →
            (lookupSec y.1 (extractSections html)).isSome = true) := by
  constructor
  · intro p hp
    obtain ⟨h1, _, h3⟩ := mem_extractSchedules hp
    exact ⟨h1, h3⟩
  · intro y hy hlen
    rw [extractSections_eq_foldl, lookup_foldl_sectionStep]
    have hsurv : survPred html y.1 y = true := by
      rw [survPred, Bool.and_eq_true, decide_eq_true_eq]
      refine ⟨rfl, ?_⟩
      rw [keepAnchor, decide_eq_true_eq]
      omega
    have hmem : y ∈ (withNext (anchorsOf html) html.length).filter (survPred html y.1) :=
      List.mem_filter.mpr ⟨hy, hsurv⟩
    obtain ⟨z, hz⟩ := Option.isSome_iff_exists.mp
      (List.getLast?_isSome.mpr (List.ne_nil_of_mem hmem))
    rw [hz]
    rfl

set_option maxRecDepth 100000 in
/-- Witness for C10: a section body of exactly 10 characters
(`1 abcdefgh`) is retained. -/
theorem claim10_floor_witness :
    ((("1".data : Str), 0, W10.length) ∈ withNext (anchorsOf W10) W10.length)
      ∧ (sectionBody W10 ("1".data) 0 W10.length).length = 10
      ∧ (lookupSec ("1".data) (extractSections W10)).isSome = true := by
  refine ⟨by decide, by decide, ?_⟩
  exact (claim10_floor W10).2 ("1".data, 0, W10.length) (by decide) (by decide)

end CanLaw
